import Mathlib

/-!
Verification of the model-pricing subsystem of `cost_tracker_json.py`:
the dataset cache (`ModelCostManager.get_cost_data`), the model-name
resolver (`ModelCostManager._find_best_match` / `get_model_data`), the
decimal cost computation (`CostCalculator.calculate_costs`) and the usage
ledger (`UserCostManager`).  Python functions are embedded shallowly as
executable Lean definitions; the external fuzzy-scoring library
(`rapidfuzz`) is treated as an abstract collaborator and passed as a
function parameter.
-/

set_option maxHeartbeats 1000000

/-- Number of decimal digits of a natural number (`0` has one digit),
computed with explicit fuel; the fuel `n + 1` always suffices.  This is
the length of the coefficient of a Python `Decimal`. -/
def digLenAux : Nat → Nat → Nat
  | 0, _ => 0
  | f + 1, n => if n < 10 then 1 else digLenAux f (n / 10) + 1

/-- Number of decimal digits of `n`. -/
def digLen (n : Nat) : Nat := digLenAux (n + 1) n

/-- Number of binary digits of a natural number (`bitLen 0 = 0`),
computed with explicit fuel; the fuel `n + 1` always suffices. -/
def bitLenAux : Nat → Nat → Nat
  | 0, _ => 0
  | f + 1, n => if n = 0 then 0 else bitLenAux f (n / 2) + 1

/-- Number of binary digits of `n`. -/
def bitLen (n : Nat) : Nat := bitLenAux (n + 1) n

/-- `n / m` rounded to the nearest natural, ties to the even candidate
(IEEE-754 / Python `Decimal` default rounding). -/
def roundHalfEvenNat (n m : Nat) : Nat :=
  let q := n / m
  let r := n % m
  if 2 * r < m then q
  else if m < 2 * r then q + 1
  else if q % 2 = 0 then q else q + 1

/-- `n / m` rounded to the nearest natural, ties upwards
(for a nonnegative value this is Python `Decimal`'s `ROUND_HALF_UP`). -/
def roundHalfUpNat (n m : Nat) : Nat := (2 * n + m) / (2 * m)

/-- `n / m` rounded to the nearest integer, ties away from zero
(Python `Decimal`'s `ROUND_HALF_UP`). -/
def roundHalfUpInt (n : ℤ) (m : Nat) : ℤ :=
  if 0 ≤ n then (roundHalfUpNat n.natAbs m : ℤ) else -(roundHalfUpNat n.natAbs m : ℤ)

/-- Round a rational to the nearest integer, ties away from zero
(the specification's "round half up" on exact values). -/
def roundHalfUpQ (x : ℚ) : ℤ :=
  if 0 ≤ x then ⌊x + 1 / 2⌋ else -⌊-x + 1 / 2⌋

/-- Round `n` to at most 53 significant bits, ties to even, returning
`(m, s)` with the rounded value equal to `m * 2 ^ s` and `m < 2 ^ 53`.
This is the significand rounding of IEEE-754 binary64 multiplication. -/
def fpMantissaRound (n : Nat) : Nat × Nat :=
  let b := bitLen n
  if b ≤ 53 then (n, 0)
  else
    let s := b - 53
    let m := roundHalfEvenNat n (2 ^ s)
    if bitLen m ≤ 53 then (m, s) else (m / 2, s + 1)

/-- The integer significand of the binary64 value nearest to `0.6`:
`0.6 ≈ 5404319552844595 / 2 ^ 53` (and `0.3 ≈ 5404319552844595 / 2 ^ 54`). -/
def sigSixTenths : Nat := 5404319552844595

/-- The Levenshtein acceptance threshold of `_find_best_match`:
Python's `round(len(query) * threshold_ratio)` where `threshold_ratio`
is the binary64 literal `0.6` when `len(query) < 15` and `0.3`
otherwise, the multiplication is binary64 arithmetic (round to nearest,
ties to even) and `round` rounds half to even.  The product
`len * 0.6` is the exactly represented dyadic `p.1 * 2 ^ p.2 / 2 ^ shift`,
so its half-even integer rounding is computed on naturals. -/
def levThreshold (len : Nat) : Nat :=
  let shift : Nat := if len < 15 then 53 else 54
  let p := fpMantissaRound (len * sigSixTenths)
  roundHalfEvenNat (p.1 * 2 ^ p.2) (2 ^ shift)

/-- A Python `Decimal` value: `coeff * 10 ^ exp`.  (`Decimal` also
carries a sign on the coefficient; we fold it into `coeff : ℤ`.) -/
structure Dec where
  coeff : ℤ
  exp : ℤ
deriving DecidableEq

/-- The rational value of a `Dec`. -/
def Dec.val (d : Dec) : ℚ := (d.coeff : ℚ) * 10 ^ d.exp

/-- Round a `Dec` to the 28 significant digits of the default Python
`Decimal` context, ties to even; the identity when the coefficient
already fits.  A rounding carry (`10 ^ 28`) is renormalized. -/
def decRound28 (d : Dec) : Dec :=
  let dl := digLen d.coeff.natAbs
  if dl ≤ 28 then d
  else
    let s := dl - 28
    let c := roundHalfEvenNat d.coeff.natAbs (10 ^ s)
    let p : Nat × ℤ := if digLen c ≤ 28 then (c, d.exp + s) else (c / 10, d.exp + s + 1)
    ⟨if d.coeff < 0 then -(p.1 : ℤ) else (p.1 : ℤ), p.2⟩

/-- The exact (unrounded) product of two `Dec`s. -/
def rawMul (a b : Dec) : Dec := ⟨a.coeff * b.coeff, a.exp + b.exp⟩

/-- The exact (unrounded) sum of two `Dec`s, at the ideal exponent
`min a.exp b.exp`. -/
def rawAdd (a b : Dec) : Dec :=
  let e := min a.exp b.exp
  ⟨a.coeff * 10 ^ (a.exp - e).toNat + b.coeff * 10 ^ (b.exp - e).toNat, e⟩

/-- Python `Decimal` multiplication under the default context:
exact product rounded to 28 significant digits, ties to even. -/
def decMul (a b : Dec) : Dec := decRound28 (rawMul a b)

/-- Python `Decimal` addition under the default context:
exact sum rounded to 28 significant digits, ties to even. -/
def decAdd (a b : Dec) : Dec := decRound28 (rawAdd a b)

/-- `d.quantize(Decimal("0.00000001"), rounding=ROUND_HALF_UP)`:
round the value to exponent `-8` with ties away from zero; Python
signals `InvalidOperation` (modelled as `.error ()`) when the resulting
coefficient exceeds the context precision of 28 digits. -/
def decQuantize8 (d : Dec) : Except Unit Dec :=
  let z : ℤ :=
    if 0 ≤ d.exp + 8 then d.coeff * 10 ^ (d.exp + 8).toNat
    else roundHalfUpInt d.coeff (10 ^ (-(d.exp + 8)).toNat)
  if digLen z.natAbs ≤ 28 then .ok ⟨z, -8⟩ else .error ()

/-- `decRound28` does not round `d` (its coefficient fits in the
28-digit context precision). -/
def roundFree (d : Dec) : Prop := decRound28 d = d

/-- Quantization of an exact rational to 8 fractional digits with
ties-away-from-zero rounding, as the specification states it. -/
def quantize8Q (q : ℚ) : ℚ := (roundHalfUpQ (q * 10 ^ 8) : ℚ) / 10 ^ 8

instance {ε : Type} {α : Type} [DecidableEq ε] [DecidableEq α] :
    DecidableEq (Except ε α) := fun x y =>
  match x, y with
  | .ok a, .ok b =>
      if h : a = b then .isTrue (by rw [h]) else .isFalse (fun hh => h (by cases hh; rfl))
  | .error a, .error b =>
      if h : a = b then .isTrue (by rw [h]) else .isFalse (fun hh => h (by cases hh; rfl))
  | .ok _, .error _ => .isFalse (fun hh => Except.noConfusion hh)
  | .error _, .ok _ => .isFalse (fun hh => Except.noConfusion hh)

/-- Python `str.lower()`, modelled character-wise (the model names in
the pricing dataset are ASCII). -/
def strLower (s : String) : String := ⟨s.data.map Char.toLower⟩

/-- A pricing record: the two per-token cost fields read by
`CostCalculator.calculate_costs`; all other JSON fields are ignored by
the subsystem.  A missing field is `none` (Python `dict.get` default). -/
structure PricingRecord where
  input_cost_per_token : Option Dec
  output_cost_per_token : Option Dec
deriving DecidableEq

/-- The empty pricing record `{}`. -/
def PricingRecord.empty : PricingRecord := ⟨none, none⟩

/-- The pricing dataset: a JSON object, i.e. an insertion-ordered map
from model-name keys to pricing records (Python `dict` preserves
insertion order; keys are pairwise distinct strings). -/
abbrev Dataset := List (String × PricingRecord)

/-- The resolver memo `ModelCostManager._best_match_cache`: raw query
string ↦ resolved key (`none` records a failed resolution). -/
abbrev Memo := List (String × Option String)

/-- Python `dict` assignment `d[k] = v`: update in place if the key is
present (keeping its position), else append. -/
def dictUpsert {β : Type} (k : String) (v : β) : List (String × β) → List (String × β)
  | [] => [(k, v)]
  | (k', v') :: rest =>
      if k' = k then (k', v) :: rest else (k', v') :: dictUpsert k v rest

/-- `{key.lower(): key for key in json_data.keys()}`: iterate the keys in
order, keyed by the lower-cased form; a later key with the same
lower-casing overwrites the value but keeps the first position. -/
def keysLower (keys : List String) : List (String × String) :=
  keys.foldl (fun d key => dictUpsert (strLower key) key d) []

/-- Python `max(pairs, key=lambda x: x[0])`: the first pair with maximal
first component (`max` keeps the incumbent on ties); `none` models the
`ValueError` raised on an empty sequence. -/
def maxByFirst (l : List (ℚ × String)) : Option (ℚ × String) :=
  match l with
  | [] => none
  | x :: xs => some (xs.foldl (fun best y => if best.1 < y.1 then y else best) x)

/-- The first pair with minimal second component of a nonempty list
(the running-minimum loop of the Levenshtein stage keeps the first
minimum because it updates only on strict decrease). -/
def minBySnd (l : List (String × Nat)) : Option (String × Nat) :=
  match l with
  | [] => none
  | x :: xs => some (xs.foldl (fun best y => if y.2 < best.2 then y else best) x)

/-- One cell row of the `ModelCostManager.levenshtein_distance` dynamic
program: given the character `c` (of `s1`), the remaining characters of
`s2`, the value of the current row at the previous column (`left`) and
the tail of the previous row starting at the previous column, produce
the rest of the current row.  Mirrors
`dp[i][j] = min(dp[i-1][j] + 1, dp[i][j-1] + 1, dp[i-1][j-1] + cost)`. -/
def levRowAux (c : Char) : List Char → Nat → List Nat → List Nat
  | [], _, _ => []
  | bj :: brest, left, p0 :: prest =>
      let p1 := prest.headD 0
      let cost := if c = bj then 0 else 1
      let cell := min (p1 + 1) (min (left + 1) (p0 + cost))
      cell :: levRowAux c brest cell prest
  | _ :: _, _, [] => []

/-- The full DP row for one more character of `s1`, with first entry `i`
(the row index, `dp[i][0] = i`). -/
def levRow (c : Char) (b : List Char) (prev : List Nat) (i : Nat) : List Nat :=
  i :: levRowAux c b i prev

/-- Iterate `levRow` over the characters of `s1`. -/
def levRows : List Char → List Char → Nat → List Nat → List Nat
  | [], _, _, row => row
  | c :: arest, b, i, row => levRows arest b (i + 1) (levRow c b row (i + 1))

/-- `ModelCostManager.levenshtein_distance(s1, s2)`: the standard
dynamic program over the `(len(s1)+1) × (len(s2)+1)` table, returning
`dp[m][n]`. -/
def levenshtein_distance (s1 s2 : String) : Nat :=
  (levRows s1.data s2.data 0 (List.range (s2.data.length + 1))).getLastD 0

/-- The Levenshtein scan loop of `_find_best_match`: walk the
`(original_key, distance)` pairs keeping the first running minimum,
returning `.inl key` as soon as a distance `< 2` is seen (the early
exit), else `.inr (min_distance, best_match)`. -/
def levScan : List (String × Nat) → Option Nat → Option String →
    Sum String (Option Nat × Option String)
  | [], minD, best => .inr (minD, best)
  | (key, dist) :: rest, minD, best =>
      let upd := match minD with
        | none => true
        | some m => dist < m
      let minD' := if upd then some dist else minD
      let best' := if upd then some key else best
      if dist < 2 then .inl key else levScan rest minD' best'

/-- `float("inf") <= threshold` is false; otherwise compare the tracked
minimum with the threshold. -/
def minWithin (minD : Option Nat) (threshold : Nat) : Bool :=
  match minD with
  | none => false
  | some m => m ≤ threshold

/-- `ModelCostManager._find_best_match(query, json_data)`.

The two `rapidfuzz` scoring functions are abstract parameters
(`scoreFull` for `fuzz.ratio`, `scorePartial` for `fuzz.partial_ratio`),
applied exactly as the source applies them: to each lower-cased key and
the lower-cased query, on a 0–100 scale.  `.error ()` models the
`ValueError` that Python's `max` raises on an empty sequence (empty
dataset); `.ok none` is Python's `return None`. -/
def find_best_match (scoreFull scorePartial : String → String → ℚ)
    (query : String) (json_data : Dataset) : Except Unit (Option String) :=
  let query_lower := strLower query
  let keys_lower := keysLower (json_data.map (·.1))
  match keys_lower.lookup query_lower with
  | some orig => .ok (some orig)
  | none =>
    match maxByFirst (keys_lower.map fun p => (scoreFull p.1 query_lower, p.1)) with
    | none => .error ()
    | some (best_ratio, best_key) =>
      if 79 ≤ best_ratio then .ok (some best_key)
      else
        let threshold := levThreshold query.length
        let pairs := keys_lower.map fun p => (p.2, levenshtein_distance query_lower p.1)
        match levScan pairs none none with
        | .inl key => .ok (some key)
        | .inr (minD, best) =>
          if minWithin minD threshold then .ok best
          else
            match maxByFirst (keys_lower.map fun p => (scorePartial p.1 query_lower, p.1)) with
            | none => .error ()
            | some (pr, pk) => if 80 ≤ pr then .ok (some pk) else .ok none

/-- `ModelCostManager.get_model_data(model)` for a fixed, already
fetched dataset: consult the memo keyed by the raw model string; on a
miss run `_find_best_match` and memoize its result (also a `None`
result); return `json_data.get(best_match, {})`, or `{}` for a `None`
best match.  The boolean records whether `_find_best_match` ran. -/
def get_model_data (scoreFull scorePartial : String → String → ℚ)
    (model : String) (json_data : Dataset) (memo : Memo) :
    Except Unit (PricingRecord × Memo × Bool) :=
  match memo.lookup model with
  | some best =>
      .ok (match best with
        | none => PricingRecord.empty
        | some bm => (json_data.lookup bm).getD PricingRecord.empty,
        memo, false)
  | none =>
      match find_best_match scoreFull scorePartial model json_data with
      | .error e => .error e
      | .ok best =>
          let memo' := dictUpsert model best memo
          .ok (match best with
            | none => PricingRecord.empty
            | some bm => (json_data.lookup bm).getD PricingRecord.empty,
            memo', true)

/-- Lines 296–310 of `CostCalculator.calculate_costs`, given the
resolved pricing record: missing cost fields default to `Decimal("0")`;
`input_tokens * input_cost_per_token` and
`output_tokens * output_cost_per_token` are context multiplications,
their sum a context addition, scaled by `Decimal(float(compensation))`
(`comp` is that exact decimal) and quantized to 8 fractional digits,
half up. -/
def costFromPricing (rec : PricingRecord) (input_tokens output_tokens : Nat)
    (comp : Dec) : Except Unit Dec :=
  let input_cost_per_token := rec.input_cost_per_token.getD ⟨0, 0⟩
  let output_cost_per_token := rec.output_cost_per_token.getD ⟨0, 0⟩
  let input_cost := decMul ⟨input_tokens, 0⟩ input_cost_per_token
  let output_cost := decMul ⟨output_tokens, 0⟩ output_cost_per_token
  decQuantize8 (decMul comp (decAdd input_cost output_cost))

/-- `CostCalculator.calculate_costs(model, input_tokens, output_tokens,
compensation)`: resolve the model's pricing record, then compute the
quantized total cost.  The memo and the invoked-resolver flag are
carried through for observability. -/
def calculate_costs (scoreFull scorePartial : String → String → ℚ)
    (model : String) (json_data : Dataset) (memo : Memo)
    (input_tokens output_tokens : Nat) (comp : Dec) :
    Except Unit (Dec × Memo × Bool) :=
  match get_model_data scoreFull scorePartial model json_data memo with
  | .error e => .error e
  | .ok (rec, memo', invoked) =>
      match costFromPricing rec input_tokens output_tokens comp with
      | .error e => .error e
      | .ok total => .ok (total, memo', invoked)

/-- The cost formula as the specification states it, on exact rationals:
`compensation_factor * (input_tokens * input_cost_per_token +
output_tokens * output_cost_per_token)` quantized to 8 fractional
digits, half up. -/
def specCost (rec : PricingRecord) (input_tokens output_tokens : Nat)
    (comp : Dec) : ℚ :=
  quantize8Q (comp.val *
    ((input_tokens : ℚ) * (rec.input_cost_per_token.getD ⟨0, 0⟩).val +
      (output_tokens : ℚ) * (rec.output_cost_per_token.getD ⟨0, 0⟩).val))

/-- A JSON value, as deserialized by `response.json()` / `json.load`:
a mapping, a list, a string or a number.  The dataset is supposed to be
a mapping; nothing in `get_cost_data` checks this. -/
inductive JVal : Type
  | obj : List (String × JVal) → JVal
  | arr : List JVal → JVal
  | str : String → JVal
  | num : ℤ → JVal

/-- Shape validation as the specification describes it: the dataset
must be a mapping type, never a list. -/
def JVal.isMapping : JVal → Bool
  | .obj _ => true
  | _ => false

/-- The observable I/O steps of one execution of
`ModelCostManager.get_cost_data`, in program order. -/
inductive CEvt : Type
  | acquire
  | release
  | readCache
  | fetch
  | rename
  | writeCache
  | readBkp
deriving DecidableEq

/-- The environment one `get_cost_data` execution runs in: the clock,
the cached file (modification time and parsed content), the TTL, the
outcome of the network fetch (`.error ()` for a network error, non-2xx
status or malformed body), the parsed `.bkp` file if present, and
whether the best-effort backup rename succeeds. -/
structure CacheEnv (α : Type) where
  now : ℤ
  cacheMtime : Option ℤ
  cacheContent : α
  ttl : ℤ
  fetchResult : Except Unit α
  bkpContent : Option α
  renameOk : Bool

/-- What one `get_cost_data` execution did: its return value (`.error`
models a propagated exception), whether it performed a network fetch,
what it wrote to the cache file, whether the cache file was renamed to
its `.bkp` sibling, and the ordered I/O trace. -/
structure CacheOutcome (α : Type) where
  result : Except Unit α
  fetched : Bool
  cacheWritten : Option α
  renamed : Bool
  trace : List CEvt

/-- `ModelCostManager._is_cache_valid`: the cache file's age is
strictly below the TTL. -/
def is_cache_valid (now mtime ttl : ℤ) : Bool := now - mtime < ttl

/-- `os.path.exists(cache_file) and _is_cache_valid(cache_file)`. -/
def cacheHit {α : Type} (env : CacheEnv α) : Bool :=
  match env.cacheMtime with
  | some m => is_cache_valid env.now m env.ttl
  | none => false

/-- Config.CACHE_TTL: the pricing json file is kept for 5 days. -/
def CACHE_TTL : Nat := 432000

/-- One execution of `ModelCostManager.get_cost_data` (the body of the
decorated function).  Under the lock: if the cache file exists and is
fresh, read and return it.  Otherwise fetch; on success rename the old
cache file to `.bkp` (best effort, outside the lock) and write the new
data under the lock; on failure read the `.bkp` file under the lock if
it exists, else re-raise. -/
def get_cost_data {α : Type} (env : CacheEnv α) : CacheOutcome α :=
  if cacheHit env then
    { result := .ok env.cacheContent, fetched := false, cacheWritten := none,
      renamed := false, trace := [.acquire, .readCache, .release] }
  else
    match env.fetchResult with
    | .ok data =>
        let haveCache := env.cacheMtime.isSome
        { result := .ok data, fetched := true, cacheWritten := some data,
          renamed := haveCache && env.renameOk,
          trace := [.acquire, .release, .fetch] ++
            (if haveCache then [.rename] else []) ++
            [.acquire, .writeCache, .release] }
    | .error e =>
        match env.bkpContent with
        | some b =>
            { result := .ok b, fetched := true, cacheWritten := none,
              renamed := false,
              trace := [.acquire, .release, .fetch, .acquire, .readBkp, .release] }
        | none =>
            { result := .error e, fetched := true, cacheWritten := none,
              renamed := false,
              trace := [.acquire, .release, .fetch, .acquire, .release] }

/-- Annotate each event of a trace with the number of locks held when
it happens (`acquire` increments after itself, `release` decrements
before itself). -/
def annotateDepth : List CEvt → Nat → List (CEvt × Nat)
  | [], _ => []
  | .acquire :: r, d => (.acquire, d) :: annotateDepth r (d + 1)
  | .release :: r, d => (.release, d - 1) :: annotateDepth r (d - 1)
  | e :: r, d => (e, d) :: annotateDepth r d

/-- Lock depth at each event of a trace, starting unlocked. -/
def lockDepths (t : List CEvt) : List (CEvt × Nat) := annotateDepth t 0

/-- A usage record as appended by `UserCostManager.update_user_cost`;
the timestamp (`datetime.now().isoformat()`) and the stringified cost
are supplied by the environment. -/
structure UsageRecord where
  user : String
  model : String
  timestamp : String
  input_tokens : Nat
  output_tokens : Nat
  total_cost : String
deriving DecidableEq

/-- The parsed content of the ledger file: the empty mapping `{}`
written on initialization, or a list of usage records. -/
inductive LedgerFile : Type
  | emptyObj : LedgerFile
  | recs : List UsageRecord → LedgerFile
deriving DecidableEq

/-- `UserCostManager._ensure_cost_file_exists`: if the ledger file does
not exist, create it with content `{}` (`json.dump({}, cost_file)`). -/
def ensure_cost_file_exists : Option LedgerFile → LedgerFile
  | none => .emptyObj
  | some f => f

/-- The `# Ensure costs is a list` coercion of `update_user_cost`:
anything that is not a list is replaced by `[]`. -/
def ledgerList : LedgerFile → List UsageRecord
  | .recs l => l
  | .emptyObj => []

/-- `UserCostManager.update_user_cost`: read the ledger, coerce to a
list, append one record carrying the supplied timestamp, write back. -/
def update_user_cost (f : LedgerFile) (user_email model : String)
    (input_tokens output_tokens : Nat) (total_cost timestamp : String) :
    LedgerFile :=
  .recs (ledgerList f ++
    [⟨user_email, model, timestamp, input_tokens, output_tokens, total_cost⟩])

/-- Stage 1 as the specification states it: exact match of the
lower-cased query against the lower-cased dataset keys (yielding the
dict's stored original key). -/
def stageExact (query : String) (json_data : Dataset) : Option String :=
  (keysLower (json_data.map (·.1))).lookup (strLower query)

/-- Stage 2 as the specification states it: full-string similarity
ratio against every (lower-cased) key; accept the maximum-ratio key if
and only if its score is at least 79. -/
def stageFullScore (scoreFull : String → String → ℚ) (query : String)
    (json_data : Dataset) : Option String :=
  let kl := keysLower (json_data.map (·.1))
  match maxByFirst (kl.map fun p => (scoreFull p.1 (strLower query), p.1)) with
  | none => none
  | some (s, k) => if 79 ≤ s then some k else none

/-- Stage 3 as the specification states it: Levenshtein distance
against every key; return immediately the first key at distance below
2; otherwise accept the minimum-distance key if and only if the minimum
is at most `round(len(query) * 0.6)` (length below 15) or
`round(len(query) * 0.3)`. -/
def stageLev (query : String) (json_data : Dataset) : Option String :=
  let kl := keysLower (json_data.map (·.1))
  let pairs := kl.map fun p => (p.2, levenshtein_distance (strLower query) p.1)
  match pairs.find? (fun pr => pr.2 < 2) with
  | some pr => some pr.1
  | none =>
      match minBySnd pairs with
      | none => none
      | some (k, m) => if m ≤ levThreshold query.length then some k else none

/-- Stage 4 as the specification states it: partial ratio against every
(lower-cased) key; accept the best key if and only if its score is at
least 80. -/
def stagePartialScore (scorePartial : String → String → ℚ) (query : String)
    (json_data : Dataset) : Option String :=
  let kl := keysLower (json_data.map (·.1))
  match maxByFirst (kl.map fun p => (scorePartial p.1 (strLower query), p.1)) with
  | none => none
  | some (s, k) => if 80 ≤ s then some k else none

/-- The four-stage fallback pipeline as the specification states it,
stopping at the first stage that yields a result. -/
def resolveStages (scoreFull scorePartial : String → String → ℚ)
    (query : String) (json_data : Dataset) : Option String :=
  match stageExact query json_data with
  | some k => some k
  | none =>
    match stageFullScore scoreFull query json_data with
    | some k => some k
    | none =>
      match stageLev query json_data with
      | some k => some k
      | none => stagePartialScore scorePartial query json_data

/-- The textbook Levenshtein recurrence: distance between two character
lists with unit-cost insertions, deletions and substitutions. -/
def editDist : List Char → List Char → Nat
  | [], t => t.length
  | s, [] => s.length
  | a :: s, b :: t =>
      min (editDist s (b :: t) + 1)
        (min (editDist (a :: s) t + 1) (editDist s t + (if a = b then 0 else 1)))
termination_by s t => s.length + t.length
decreasing_by all_goals simp_arith

/-- A single edit: insert, delete or substitute one character at some
position. -/
inductive EditStep : List Char → List Char → Prop
  | insert (u v : List Char) (c : Char) : EditStep (u ++ v) (u ++ c :: v)
  | delete (u v : List Char) (c : Char) : EditStep (u ++ c :: v) (u ++ v)
  | subst (u v : List Char) (c d : Char) : EditStep (u ++ c :: v) (u ++ d :: v)

/-- `EditSeq n s t`: `t` is reachable from `s` by `n` single-character
edits.  The standard Levenshtein distance of `s` and `t` is the least
such `n`. -/
inductive EditSeq : Nat → List Char → List Char → Prop
  | refl (s : List Char) : EditSeq 0 s s
  | step {n : Nat} {s t u : List Char} :
      EditStep s t → EditSeq n t u → EditSeq (n + 1) s u

/-- The intended value of a DP row: entry `j` is the edit distance
between the reversed consumed prefix `x` of `s1` and the reversed
length-`j` prefix of the remaining `b` of `s2` (accumulated in `y`). -/
def specRow (x : List Char) : List Char → List Char → List Nat
  | y, [] => [editDist x y]
  | y, d :: b' => editDist x y :: specRow x (d :: y) b'

/-- Counterexample for C7: on first use with no ledger file,
`_ensure_cost_file_exists` persists the empty mapping `{}`
(`json.dump({}, cost_file)`), not an empty list. -/
theorem ledger_init_not_list_cx :
    ensure_cost_file_exists none = LedgerFile.emptyObj ∧
    ensure_cost_file_exists none ≠ LedgerFile.recs [] := by
  decide

/-- C7 (amended): on first use the ledger initializes the persisted
empty mapping `{}`, which `update_user_cost` coerces to an empty list;
each call is a full read-modify-write appending exactly one record
carrying the supplied timestamp; three sequential appends from a fresh
ledger yield exactly those three records in insertion order with the
earlier entries unchanged. -/
theorem ledger_append_three (f : LedgerFile)
    (u m c ts : String) (it ot : Nat)
    (u₁ m₁ c₁ ts₁ : String) (i₁ o₁ : Nat)
    (u₂ m₂ c₂ ts₂ : String) (i₂ o₂ : Nat)
    (u₃ m₃ c₃ ts₃ : String) (i₃ o₃ : Nat) :
    (ensure_cost_file_exists none = LedgerFile.emptyObj ∧
      ledgerList LedgerFile.emptyObj = []) ∧
    update_user_cost f u m it ot c ts =
      LedgerFile.recs (ledgerList f ++ [⟨u, m, ts, it, ot, c⟩]) ∧
    update_user_cost
      (update_user_cost
        (update_user_cost (ensure_cost_file_exists none) u₁ m₁ i₁ o₁ c₁ ts₁)
        u₂ m₂ i₂ o₂ c₂ ts₂)
      u₃ m₃ i₃ o₃ c₃ ts₃ =
      LedgerFile.recs
        [⟨u₁, m₁, ts₁, i₁, o₁, c₁⟩, ⟨u₂, m₂, ts₂, i₂, o₂, c₂⟩,
          ⟨u₃, m₃, ts₃, i₃, o₃, c₃⟩] :=
  ⟨⟨rfl, rfl⟩, rfl, rfl⟩

/-- C3: when the cache is stale or absent and the fetch fails,
`get_cost_data` returns the backup's contents when a `.bkp` file
exists; and it propagates the failure if and only if the fetch failed
with no backup present. -/
theorem fetch_failure_uses_backup {α : Type} (env : CacheEnv α) :
    (∀ b, cacheHit env = false → env.fetchResult = .error () →
      env.bkpContent = some b → (get_cost_data env).result = .ok b) ∧
    ((get_cost_data env).result = .error () ↔
      cacheHit env = false ∧ env.fetchResult = .error () ∧
        env.bkpContent = none) := by
  constructor
  · intro b hmiss herr hbkp
    simp [get_cost_data, hmiss, herr, hbkp]
  · constructor
    · intro hres
      by_cases hc : cacheHit env
      · simp [get_cost_data, hc] at hres
      · cases hf : env.fetchResult with
        | ok data => simp [get_cost_data, hc, hf] at hres
        | error z =>
          cases hb : env.bkpContent with
          | some b => simp [get_cost_data, hc, hf, hb] at hres
          | none => exact ⟨by simpa using hc, by simp [hf], by simp [hb]⟩
    · rintro ⟨hc, hf, hb⟩
      simp [get_cost_data, hc, hf, hb]

/-- C4: `get_cost_data` serves the deserialized cache file with no
network fetch exactly when the cache file exists and its age is
strictly below the TTL; when the file is absent or at least TTL-old it
performs a network fetch; the default TTL is 5 days (432000 seconds). -/
theorem cache_ttl_gate {α : Type} (env : CacheEnv α) :
    (cacheHit env = true →
      (get_cost_data env).result = .ok env.cacheContent ∧
        (get_cost_data env).fetched = false) ∧
    (cacheHit env = false → (get_cost_data env).fetched = true) ∧
    (cacheHit env = true ↔
      ∃ m, env.cacheMtime = some m ∧ env.now - m < env.ttl) ∧
    CACHE_TTL = 5 * 24 * 60 * 60 := by
  refine ⟨?_, ?_, ?_, by decide⟩
  · intro hc
    simp [get_cost_data, hc]
  · intro hc
    cases hf : env.fetchResult with
    | ok data => simp [get_cost_data, hc, hf]
    | error z =>
      cases hb : env.bkpContent with
      | some b => simp [get_cost_data, hc, hf, hb]
      | none => simp [get_cost_data, hc, hf, hb]
  · cases hm : env.cacheMtime with
    | none => simp [cacheHit, hm]
    | some m => simp [cacheHit, hm, is_cache_valid]

/-- Counterexample for C5: a fetched response that is a JSON list (not
a mapping) is not rejected: `get_cost_data` writes it to the cache file
and returns it as the served dataset. -/
theorem list_dataset_served_cx :
    (get_cost_data
      (⟨0, none, JVal.num 0, 5, .ok (JVal.arr []), none, true⟩ :
        CacheEnv JVal)).result = .ok (JVal.arr []) ∧
    (get_cost_data
      (⟨0, none, JVal.num 0, 5, .ok (JVal.arr []), none, true⟩ :
        CacheEnv JVal)).cacheWritten = some (JVal.arr []) ∧
    (JVal.arr []).isMapping = false :=
  ⟨rfl, rfl, rfl⟩

/-- C5 (amended): `get_cost_data` performs no shape validation at all:
whatever value the fetch successfully parses — mapping or not — is
written to the cache file and returned as the dataset. -/
theorem fetched_value_cached_unvalidated {α : Type} (env : CacheEnv α)
    (v : α) (h1 : cacheHit env = false) (h2 : env.fetchResult = .ok v) :
    (get_cost_data env).result = .ok v ∧
    (get_cost_data env).cacheWritten = some v := by
  simp [get_cost_data, h1, h2]

/-- Witness for C5 (amended), at a fetched JSON list. -/
theorem fetched_value_cached_unvalidated_witness :
    cacheHit (⟨0, none, JVal.num 0, 5, .ok (JVal.arr []), none, true⟩ :
        CacheEnv JVal) = false ∧
    ((get_cost_data
      (⟨0, none, JVal.num 0, 5, .ok (JVal.arr []), none, true⟩ :
        CacheEnv JVal)).result = .ok (JVal.arr []) ∧
      (get_cost_data
        (⟨0, none, JVal.num 0, 5, .ok (JVal.arr []), none, true⟩ :
          CacheEnv JVal)).cacheWritten = some (JVal.arr [])) :=
  ⟨rfl, fetched_value_cached_unvalidated _ _ rfl rfl⟩

/-- Counterexample for C8: in a refresh with an existing stale cache
file, the backup rename happens at lock depth 0 — outside the
mutual-exclusion lock (only the cache read and the write are under
it). -/
theorem rename_outside_lock_cx :
    lockDepths
        (get_cost_data
          (⟨10, some 0, false, 5, .ok true, none, true⟩ :
            CacheEnv Bool)).trace =
      [(.acquire, 0), (.release, 0), (.fetch, 0), (.rename, 0),
        (.acquire, 0), (.writeCache, 1), (.release, 0)] ∧
    (CEvt.rename, 0) ∈
      lockDepths
        (get_cost_data
          (⟨10, some 0, false, 5, .ok true, none, true⟩ :
            CacheEnv Bool)).trace := by
  decide

/-- C8 (amended): in every execution of `get_cost_data` the cache-file
read, the cache-file write and the backup read happen while the lock is
held (depth 1), but the backup rename always happens outside the lock
(depth 0). -/
theorem cache_io_lock_depths {α : Type} (env : CacheEnv α) (e : CEvt)
    (d : Nat) (h : (e, d) ∈ lockDepths (get_cost_data env).trace) :
    ((e = .readCache ∨ e = .writeCache ∨ e = .readBkp) → d = 1) ∧
    (e = .rename → d = 0) := by
  unfold get_cost_data at h
  by_cases hc : cacheHit env
  · simp only [hc, if_true] at h
    simp [lockDepths, annotateDepth] at h
    rcases h with ⟨rfl, rfl⟩ | ⟨rfl, rfl⟩ | ⟨rfl, rfl⟩ <;> simp
  · simp only [hc, if_false, Bool.false_eq_true] at h
    cases hf : env.fetchResult with
    | ok data =>
      simp only [hf] at h
      by_cases hm : env.cacheMtime.isSome
      · simp [lockDepths, annotateDepth, hm] at h
        rcases h with ⟨rfl, rfl⟩ | ⟨rfl, rfl⟩ | ⟨rfl, rfl⟩ | ⟨rfl, rfl⟩ |
          ⟨rfl, rfl⟩ | ⟨rfl, rfl⟩ | ⟨rfl, rfl⟩ <;> simp
      · simp [lockDepths, annotateDepth, hm] at h
        rcases h with ⟨rfl, rfl⟩ | ⟨rfl, rfl⟩ | ⟨rfl, rfl⟩ | ⟨rfl, rfl⟩ |
          ⟨rfl, rfl⟩ | ⟨rfl, rfl⟩ <;> simp
    | error z =>
      simp only [hf] at h
      cases hb : env.bkpContent with
      | some b =>
        simp only [hb] at h
        simp [lockDepths, annotateDepth] at h
        rcases h with ⟨rfl, rfl⟩ | ⟨rfl, rfl⟩ | ⟨rfl, rfl⟩ | ⟨rfl, rfl⟩ |
          ⟨rfl, rfl⟩ | ⟨rfl, rfl⟩ <;> simp
      | none =>
        simp only [hb] at h
        simp [lockDepths, annotateDepth] at h
        rcases h with ⟨rfl, rfl⟩ | ⟨rfl, rfl⟩ | ⟨rfl, rfl⟩ | ⟨rfl, rfl⟩ |
          ⟨rfl, rfl⟩ <;> simp

/-- Witness for C8 (amended), at a fresh-cache read: the cache-file
read happens at lock depth 1. -/
theorem cache_io_lock_depths_witness :
    ((CEvt.readCache, 1) ∈
      lockDepths
        (get_cost_data
          (⟨10, some 8, true, 5, .ok false, none, true⟩ :
            CacheEnv Bool)).trace) ∧
    (((CEvt.readCache = CEvt.readCache ∨ CEvt.readCache = CEvt.writeCache ∨
        CEvt.readCache = CEvt.readBkp) → 1 = 1) ∧
      (CEvt.readCache = CEvt.rename → 1 = 0)) :=
  ⟨by decide,
    cache_io_lock_depths
      (⟨10, some 8, true, 5, .ok false, none, true⟩ : CacheEnv Bool)
      CEvt.readCache 1 (by decide)⟩

/-- Witness for C3, at a failed fetch with a backup present. -/
theorem fetch_failure_uses_backup_witness :
    (cacheHit (⟨10, none, false, 5, .error (), some true, true⟩ :
        CacheEnv Bool) = false) ∧
    (get_cost_data
      (⟨10, none, false, 5, .error (), some true, true⟩ :
        CacheEnv Bool)).result = .ok true :=
  ⟨rfl,
    (fetch_failure_uses_backup
      (⟨10, none, false, 5, .error (), some true, true⟩ :
        CacheEnv Bool)).1 true rfl rfl rfl⟩

/-- Witness for C4, at a fresh cache file (age 2 < TTL 5): the cached
content is served and no fetch happens. -/
theorem cache_ttl_gate_witness :
    (cacheHit (⟨10, some 8, true, 5, .ok false, none, true⟩ :
        CacheEnv Bool) = true) ∧
    ((get_cost_data
      (⟨10, some 8, true, 5, .ok false, none, true⟩ :
        CacheEnv Bool)).result = .ok true ∧
      (get_cost_data
        (⟨10, some 8, true, 5, .ok false, none, true⟩ :
          CacheEnv Bool)).fetched = false) :=
  ⟨rfl,
    (cache_ttl_gate
      (⟨10, some 8, true, 5, .ok false, none, true⟩ : CacheEnv Bool)).1 rfl⟩

theorem dictUpsert_ne_nil {β : Type} (k : String) (v : β)
    (l : List (String × β)) : dictUpsert k v l ≠ [] := by
  cases l with
  | nil => simp [dictUpsert]
  | cons p rest =>
    obtain ⟨k', v'⟩ := p
    by_cases h : k' = k <;> simp [dictUpsert, h]

theorem foldl_upsert_ne_nil (ks : List String) :
    ∀ acc : List (String × String), acc ≠ [] →
      ks.foldl (fun d key => dictUpsert (strLower key) key d) acc ≠ [] := by
  induction ks with
  | nil => intro acc h; simpa using h
  | cons k ks ih => intro acc _; exact ih _ (dictUpsert_ne_nil _ _ _)

theorem keysLower_nil : keysLower [] = [] := rfl

theorem keysLower_ne_nil (k : String) (ks : List String) :
    keysLower (k :: ks) ≠ [] := by
  unfold keysLower
  rw [List.foldl_cons]
  exact foldl_upsert_ne_nil ks _ (dictUpsert_ne_nil _ _ _)

theorem lookup_dictUpsert_self {β : Type} (k : String) (v : β)
    (l : List (String × β)) : (dictUpsert k v l).lookup k = some v := by
  induction l with
  | nil => simp [dictUpsert]
  | cons p rest ih =>
    obtain ⟨k', v'⟩ := p
    by_cases h : k' = k
    · simp [dictUpsert, h]
    · have hb : (k == k') = false := beq_eq_false_iff_ne.mpr (Ne.symm h)
      simp [dictUpsert, h, List.lookup, hb, ih]

theorem lookup_dictUpsert_ne {β : Type} (k k' : String) (v : β)
    (l : List (String × β)) (h : k' ≠ k) :
    (dictUpsert k v l).lookup k' = l.lookup k' := by
  have hb : (k' == k) = false := beq_eq_false_iff_ne.mpr h
  induction l with
  | nil => simp [dictUpsert, List.lookup, hb]
  | cons p rest ih =>
    obtain ⟨k₀, v₀⟩ := p
    by_cases h0 : k₀ = k
    · subst h0
      simp [dictUpsert, List.lookup, hb]
    · by_cases h1 : k' = k₀
      · have hb1 : (k' == k₀) = true := beq_iff_eq.mpr h1
        simp [dictUpsert, h0, List.lookup, hb1]
      · have hb1 : (k' == k₀) = false := beq_eq_false_iff_ne.mpr h1
        simp [dictUpsert, h0, List.lookup, hb1, ih]

theorem foldl_choice_mem {γ : Type} (f : γ → γ → γ)
    (hf : ∀ a b, f a b = a ∨ f a b = b) (l : List γ) :
    ∀ acc : γ, l.foldl f acc = acc ∨ l.foldl f acc ∈ l := by
  induction l with
  | nil => intro acc; left; rfl
  | cons y ys ih =>
    intro acc
    rw [List.foldl_cons]
    rcases ih (f acc y) with h | h
    · rcases hf acc y with h2 | h2 <;> rw [h, h2]
      · left; rfl
      · right; simp
    · right; simp [h]

theorem maxByFirst_mem (l : List (ℚ × String)) (x : ℚ × String)
    (h : maxByFirst l = some x) : x ∈ l := by
  cases l with
  | nil => simp [maxByFirst] at h
  | cons p rest =>
    simp only [maxByFirst, Option.some.injEq] at h
    subst h
    have hf : ∀ a b : ℚ × String,
        (fun best y : ℚ × String => if best.1 < y.1 then y else best) a b = a ∨
          (fun best y : ℚ × String => if best.1 < y.1 then y else best) a b = b := by
      intro a b; by_cases hab : a.1 < b.1 <;> simp [hab]
    rcases foldl_choice_mem _ hf rest p with h | h
    · rw [h]; simp
    · simp [h]

theorem minBySnd_mem (l : List (String × Nat)) (x : String × Nat)
    (h : minBySnd l = some x) : x ∈ l := by
  cases l with
  | nil => simp [minBySnd] at h
  | cons p rest =>
    simp only [minBySnd, Option.some.injEq] at h
    subst h
    have hf : ∀ a b : String × Nat,
        (fun best y : String × Nat => if y.2 < best.2 then y else best) a b = a ∨
          (fun best y : String × Nat => if y.2 < best.2 then y else best) a b = b := by
      intro a b; by_cases hab : b.2 < a.2 <;> simp [hab]
    rcases foldl_choice_mem _ hf rest p with h | h
    · rw [h]; simp
    · simp [h]

theorem levScan_early (l : List (String × Nat)) (pr : String × Nat)
    (h : l.find? (fun x => x.2 < 2) = some pr) :
    ∀ (minD : Option Nat) (best : Option String), levScan l minD best = .inl pr.1 := by
  induction l with
  | nil => simp at h
  | cons p rest ih =>
    obtain ⟨key, dist⟩ := p
    intro minD best
    by_cases h2 : dist < 2
    · rw [List.find?_cons_of_pos _ (by simpa using h2)] at h
      cases h
      simp [levScan, h2]
    · rw [List.find?_cons_of_neg _ (by simpa using h2)] at h
      simp only [levScan, if_neg h2]
      exact ih h _ _

theorem levScan_noEarly (l : List (String × Nat))
    (h : l.find? (fun x => x.2 < 2) = none) :
    ∀ b : String × Nat,
      levScan l (some b.2) (some b.1) =
        .inr (some (l.foldl (fun best y => if y.2 < best.2 then y else best) b).2,
          some (l.foldl (fun best y => if y.2 < best.2 then y else best) b).1) := by
  induction l with
  | nil => intro b; simp [levScan]
  | cons p rest ih =>
    obtain ⟨key, dist⟩ := p
    intro b
    rw [List.find?_cons] at h
    by_cases h2 : dist < 2
    · simp [h2] at h
    · simp only [show (decide ((key, dist).2 < 2)) = false by simpa using h2] at h
      rw [List.foldl_cons]
      by_cases hlt : dist < b.2
      · have h1 : (if (key, dist).2 < b.2 then (key, dist) else b) = (key, dist) := by
          simp [hlt]
        simp only [levScan, if_neg h2, h1]
        have := ih h (key, dist)
        simpa [hlt] using this
      · have h1 : (if (key, dist).2 < b.2 then (key, dist) else b) = b := by
          simp [hlt]
        simp only [levScan, if_neg h2, h1]
        have := ih h b
        simpa [hlt] using this

theorem levScan_spec (pairs : List (String × Nat)) :
    levScan pairs none none =
      match pairs.find? (fun x => x.2 < 2) with
      | some pr => .inl pr.1
      | none =>
        match minBySnd pairs with
        | some m => .inr (some m.2, some m.1)
        | none => .inr (none, none) := by
  cases pairs with
  | nil => simp [levScan, minBySnd]
  | cons p rest =>
    obtain ⟨key, dist⟩ := p
    by_cases h2 : dist < 2
    · rw [List.find?_cons_of_pos _ (by simpa using h2)]
      simp [levScan, h2]
    · rw [List.find?_cons_of_neg _ (by simpa using h2)]
      cases hr : rest.find? (fun x => x.2 < 2) with
      | some pr =>
        simp only [levScan, if_neg h2]
        exact levScan_early rest pr hr _ _
      | none =>
        simp only [levScan, if_neg h2, minBySnd]
        exact levScan_noEarly rest hr (key, dist)

theorem maxByFirst_eq_none (l : List (ℚ × String)) (h : maxByFirst l = none) :
    l = [] := by
  cases l with
  | nil => rfl
  | cons p rest => simp [maxByFirst] at h

theorem minBySnd_eq_none (l : List (String × Nat)) (h : minBySnd l = none) :
    l = [] := by
  cases l with
  | nil => rfl
  | cons p rest => simp [minBySnd] at h

theorem find_best_match_stages (sf sp : String → String → ℚ) (q : String)
    (d : Dataset) :
    find_best_match sf sp q d =
      match d with
      | [] => .error ()
      | _ :: _ => .ok (resolveStages sf sp q d) := by
  cases d with
  | nil => rfl
  | cons p rest =>
    have hkl : keysLower (List.map (fun x => x.1) (p :: rest)) ≠ [] :=
      keysLower_ne_nil _ _
    simp only [find_best_match, resolveStages, stageExact, stageFullScore,
      stageLev, stagePartialScore]
    cases hlook :
        (keysLower (List.map (fun x => x.1) (p :: rest))).lookup (strLower q) with
    | some orig => rfl
    | none =>
      dsimp only
      cases hmax :
          maxByFirst (List.map (fun kp => (sf kp.1 (strLower q), kp.1))
            (keysLower (List.map (fun x => x.1) (p :: rest)))) with
      | none =>
        exact absurd (List.map_eq_nil_iff.mp (maxByFirst_eq_none _ hmax)) hkl
      | some x =>
        obtain ⟨br, bk⟩ := x
        dsimp only
        by_cases h79 : (79 : ℚ) ≤ br
        · simp [h79]
        · simp only [if_neg h79]
          rw [levScan_spec]
          cases hfind :
              (List.map (fun kp => (kp.2, levenshtein_distance (strLower q) kp.1))
                (keysLower (List.map (fun x => x.1) (p :: rest)))).find?
                (fun x => x.2 < 2) with
          | some pr => rfl
          | none =>
            dsimp only
            cases hmin :
                minBySnd (List.map (fun kp => (kp.2, levenshtein_distance (strLower q) kp.1))
                  (keysLower (List.map (fun x => x.1) (p :: rest)))) with
            | none =>
              exact absurd (List.map_eq_nil_iff.mp (minBySnd_eq_none _ hmin)) hkl
            | some mn =>
              obtain ⟨mk, mdist⟩ := mn
              dsimp only
              by_cases hth : mdist ≤ levThreshold q.length
              · simp [minWithin, hth]
              · simp only [minWithin, decide_eq_true_eq, if_neg hth]
                cases hmax2 :
                    maxByFirst (List.map (fun kp => (sp kp.1 (strLower q), kp.1))
                      (keysLower (List.map (fun x => x.1) (p :: rest)))) with
                | none =>
                  exact absurd (List.map_eq_nil_iff.mp (maxByFirst_eq_none _ hmax2)) hkl
                | some y =>
                  obtain ⟨pr2, pk2⟩ := y
                  dsimp only
                  by_cases h80 : (80 : ℚ) ≤ pr2
                  · simp [h80]
                  · simp [h80]

/-- Counterexample for C1: on the empty pricing dataset (where no stage
can accept), resolution does not return the empty pricing record `{}`:
Python's `max` raises `ValueError` on the empty key sequence and the
caller receives the exception. -/
theorem resolver_empty_dataset_cx :
    get_model_data (fun _ _ => 0) (fun _ _ => 0) "gpt-4o" [] [] =
      .error () := by
  decide

/-- C1 (amended): for every query and every nonempty dataset,
`_find_best_match` is exactly the four-stage fallback pipeline
(exact match, then full-string ratio accepted iff ≥ 79, then
Levenshtein with early exit at distance < 2 and acceptance iff the
minimum is ≤ `round(len(query) * 0.6)` — `0.3` from length 15 — then
partial ratio accepted iff ≥ 80), stopping at the first stage that
yields a result; if no stage accepts, the caller of `get_model_data`
receives the empty pricing record `{}` (and the failure is memoized).
On the empty dataset the resolver instead raises. -/
theorem resolver_pipeline (sf sp : String → String → ℚ) (q : String)
    (d : Dataset) :
    (d ≠ [] → find_best_match sf sp q d = .ok (resolveStages sf sp q d)) ∧
    (d ≠ [] → ∀ memo : Memo, memo.lookup q = none →
      resolveStages sf sp q d = none →
      get_model_data sf sp q d memo =
        .ok (PricingRecord.empty, dictUpsert q none memo, true)) ∧
    (∀ memo : Memo, memo.lookup q = none →
      get_model_data sf sp q [] memo = .error ()) := by
  refine ⟨?_, ?_, ?_⟩
  · intro hne
    rw [find_best_match_stages]
    cases d with
    | nil => exact absurd rfl hne
    | cons p rest => rfl
  · intro hne memo hmemo hfail
    have hfb : find_best_match sf sp q d = .ok none := by
      rw [find_best_match_stages]
      cases d with
      | nil => exact absurd rfl hne
      | cons p rest => rw [hfail]
    simp [get_model_data, hmemo, hfb]
  · intro memo hmemo
    have hfb : find_best_match sf sp q [] = .error () :=
      find_best_match_stages sf sp q []
    simp [get_model_data, hmemo, hfb]

/-- Witness for C1 (amended): against the dataset `{"gpt-4o-mini": {}}`
the query `"zzzzzzzzzz"` passes through all four stages (with the two
fuzzy scorers returning 0), no stage accepts, and the caller receives
`{}` with the failure memoized. -/
theorem resolver_pipeline_witness :
    (([("gpt-4o-mini", PricingRecord.empty)] : Dataset) ≠ []) ∧
    find_best_match (fun _ _ => 0) (fun _ _ => 0) "zzzzzzzzzz"
        [("gpt-4o-mini", PricingRecord.empty)] =
      .ok (resolveStages (fun _ _ => 0) (fun _ _ => 0) "zzzzzzzzzz"
        [("gpt-4o-mini", PricingRecord.empty)]) ∧
    get_model_data (fun _ _ => 0) (fun _ _ => 0) "zzzzzzzzzz"
        [("gpt-4o-mini", PricingRecord.empty)] [] =
      .ok (PricingRecord.empty, [("zzzzzzzzzz", none)], true) := by
  refine ⟨by simp,
    (resolver_pipeline (fun _ _ => 0) (fun _ _ => 0) "zzzzzzzzzz"
      [("gpt-4o-mini", PricingRecord.empty)]).1 (by simp), ?_⟩
  exact (resolver_pipeline (fun _ _ => 0) (fun _ _ => 0) "zzzzzzzzzz"
    [("gpt-4o-mini", PricingRecord.empty)]).2.1 (by simp) [] rfl (by decide)

theorem get_model_data_preserves (sf sp : String → String → ℚ)
    (d : Dataset) (m' : String) (memo : Memo) (rec' : PricingRecord)
    (memo₂ : Memo) (inv' : Bool)
    (h : get_model_data sf sp m' d memo = .ok (rec', memo₂, inv'))
    (k : String) (v : Option String) (hk : memo.lookup k = some v) :
    memo₂.lookup k = some v := by
  unfold get_model_data at h
  cases hm : memo.lookup m' with
  | some best =>
    rw [hm] at h
    simp only [Except.ok.injEq, Prod.mk.injEq] at h
    obtain ⟨-, h2, -⟩ := h
    rw [← h2]
    exact hk
  | none =>
    rw [hm] at h
    cases hf : find_best_match sf sp m' d with
    | error e => rw [hf] at h; simp at h
    | ok best =>
      rw [hf] at h
      simp only [Except.ok.injEq, Prod.mk.injEq] at h
      obtain ⟨-, h2, -⟩ := h
      rw [← h2]
      have hkm : k ≠ m' := by
        intro he
        rw [he, hm] at hk
        exact Option.noConfusion hk
      rw [lookup_dictUpsert_ne m' k best memo hkm]
      exact hk

/-- C6: once `get_model_data` has been called for a raw model string,
the outcome (including a failed resolution `none`) is memoized under
that exact string; every later call with the same string — after any
interleaved calls, which only preserve existing memo entries — returns
the identical record without invoking `_find_best_match`, and no entry
is ever evicted. -/
theorem memoized_resolution (sf sp : String → String → ℚ) (d : Dataset)
    (m : String) (memo : Memo) (rec : PricingRecord) (memo₁ : Memo)
    (inv : Bool)
    (h : get_model_data sf sp m d memo = .ok (rec, memo₁, inv)) :
    (∃ bm, memo₁.lookup m = some bm ∧
      rec = (match bm with
        | none => PricingRecord.empty
        | some k => (d.lookup k).getD PricingRecord.empty)) ∧
    (∀ memo₂ : Memo,
      (∀ k v, memo₁.lookup k = some v → memo₂.lookup k = some v) →
      get_model_data sf sp m d memo₂ = .ok (rec, memo₂, false)) ∧
    (∀ (m' : String) (rec' : PricingRecord) (memo₂ : Memo) (inv' : Bool),
      get_model_data sf sp m' d memo₁ = .ok (rec', memo₂, inv') →
      ∀ k v, memo₁.lookup k = some v → memo₂.lookup k = some v) := by
  have hmain : ∃ bm, memo₁.lookup m = some bm ∧
      rec = (match bm with
        | none => PricingRecord.empty
        | some k => (d.lookup k).getD PricingRecord.empty) := by
    unfold get_model_data at h
    cases hm : memo.lookup m with
    | some best =>
      rw [hm] at h
      simp only [Except.ok.injEq, Prod.mk.injEq] at h
      obtain ⟨h1, h2, -⟩ := h
      exact ⟨best, by rw [← h2]; exact hm, h1.symm⟩
    | none =>
      rw [hm] at h
      cases hf : find_best_match sf sp m d with
      | error e => rw [hf] at h; simp at h
      | ok best =>
        rw [hf] at h
        simp only [Except.ok.injEq, Prod.mk.injEq] at h
        obtain ⟨h1, h2, -⟩ := h
        exact ⟨best, by rw [← h2]; exact lookup_dictUpsert_self m best memo,
          h1.symm⟩
  refine ⟨hmain, ?_, ?_⟩
  · intro memo₂ hpres
    obtain ⟨bm, hbm, hrec⟩ := hmain
    have h2 := hpres m bm hbm
    unfold get_model_data
    rw [h2, hrec]
  · intro m' rec' memo₂ inv' h' k v hk
    exact get_model_data_preserves sf sp d m' memo₁ rec' memo₂ inv' h' k v hk

/-- Witness for C6, memoizing the exact match of `"gpt-4o"`. -/
theorem memoized_resolution_witness :
    get_model_data (fun _ _ => 0) (fun _ _ => 0) "gpt-4o"
        [("gpt-4o", PricingRecord.empty)] [] =
      .ok (PricingRecord.empty, [("gpt-4o", some "gpt-4o")], true) ∧
    (∀ memo₂ : Memo,
      (∀ k v, ([("gpt-4o", some "gpt-4o")] : Memo).lookup k = some v →
        memo₂.lookup k = some v) →
      get_model_data (fun _ _ => 0) (fun _ _ => 0) "gpt-4o"
          [("gpt-4o", PricingRecord.empty)] memo₂ =
        .ok (PricingRecord.empty, memo₂, false)) := by
  refine ⟨by decide, ?_⟩
  exact (memoized_resolution (fun _ _ => 0) (fun _ _ => 0)
    [("gpt-4o", PricingRecord.empty)] "gpt-4o" [] PricingRecord.empty
    [("gpt-4o", some "gpt-4o")] true (by decide)).2.1

theorem dictUpsert_mem {β : Type} (k : String) (v : β)
    (l : List (String × β)) (p : String × β) (h : p ∈ dictUpsert k v l) :
    p = (k, v) ∨ p ∈ l := by
  induction l with
  | nil => simpa [dictUpsert] using h
  | cons p₀ rest ih =>
    obtain ⟨k₀, v₀⟩ := p₀
    by_cases h0 : k₀ = k
    · subst h0
      rw [show dictUpsert k₀ v ((k₀, v₀) :: rest) = (k₀, v) :: rest by
        simp [dictUpsert]] at h
      rcases List.mem_cons.mp h with h | h
      · left; exact h
      · right; exact List.mem_cons_of_mem _ h
    · rw [show dictUpsert k v ((k₀, v₀) :: rest) =
        (k₀, v₀) :: dictUpsert k v rest by simp [dictUpsert, h0]] at h
      rcases List.mem_cons.mp h with h | h
      · right; exact h ▸ List.mem_cons_self _ _
      · rcases ih h with h | h
        · left; exact h
        · right; exact List.mem_cons_of_mem _ h

theorem foldl_upsert_mem (keys : List String) :
    ∀ (acc : List (String × String)) (pr : String × String),
      pr ∈ keys.foldl (fun d key => dictUpsert (strLower key) key d) acc →
      pr ∈ acc ∨ ∃ key ∈ keys, pr = (strLower key, key) := by
  induction keys with
  | nil => intro acc pr h; left; exact h
  | cons k ks ih =>
    intro acc pr h
    rw [List.foldl_cons] at h
    rcases ih _ pr h with h2 | ⟨key, hk, he⟩
    · rcases dictUpsert_mem _ _ _ _ h2 with he | hm
      · right; exact ⟨k, by simp, he⟩
      · left; exact hm
    · right; exact ⟨key, by simp [hk], he⟩

theorem keysLower_mem (keys : List String) (pr : String × String)
    (h : pr ∈ keysLower keys) : strLower pr.2 = pr.1 ∧ pr.2 ∈ keys := by
  rcases foldl_upsert_mem keys [] pr h with h | ⟨key, hk, he⟩
  · simp at h
  · subst he
    exact ⟨rfl, hk⟩

theorem stageFullScore_mem (sf : String → String → ℚ) (q : String)
    (d : Dataset) (k : String) (h : stageFullScore sf q d = some k) :
    ∃ K, (k, K) ∈ keysLower (d.map (·.1)) ∧ strLower K = k ∧
      K ∈ d.map (·.1) := by
  unfold stageFullScore at h
  dsimp only at h
  cases hmax : maxByFirst ((keysLower (d.map (·.1))).map
      fun p => (sf p.1 (strLower q), p.1)) with
  | none => rw [hmax] at h; simp at h
  | some x =>
    obtain ⟨s, kx⟩ := x
    rw [hmax] at h
    dsimp only at h
    by_cases hs : (79 : ℚ) ≤ s
    · rw [if_pos hs] at h
      obtain rfl : kx = k := by simpa using h
      obtain ⟨p, hp, hpe⟩ := List.mem_map.mp (maxByFirst_mem _ _ hmax)
      obtain ⟨hl, hmem⟩ := keysLower_mem _ _ hp
      have hk1 : p.1 = kx := congrArg Prod.snd hpe
      refine ⟨p.2, ?_, by rw [hl, hk1], hmem⟩
      rw [← hk1]
      exact hp
    · rw [if_neg hs] at h; simp at h

theorem stagePartialScore_mem (sp : String → String → ℚ) (q : String)
    (d : Dataset) (k : String) (h : stagePartialScore sp q d = some k) :
    ∃ K, (k, K) ∈ keysLower (d.map (·.1)) ∧ strLower K = k ∧
      K ∈ d.map (·.1) := by
  unfold stagePartialScore at h
  dsimp only at h
  cases hmax : maxByFirst ((keysLower (d.map (·.1))).map
      fun p => (sp p.1 (strLower q), p.1)) with
  | none => rw [hmax] at h; simp at h
  | some x =>
    obtain ⟨s, kx⟩ := x
    rw [hmax] at h
    dsimp only at h
    by_cases hs : (80 : ℚ) ≤ s
    · rw [if_pos hs] at h
      obtain rfl : kx = k := by simpa using h
      obtain ⟨p, hp, hpe⟩ := List.mem_map.mp (maxByFirst_mem _ _ hmax)
      obtain ⟨hl, hmem⟩ := keysLower_mem _ _ hp
      have hk1 : p.1 = kx := congrArg Prod.snd hpe
      refine ⟨p.2, ?_, by rw [hl, hk1], hmem⟩
      rw [← hk1]
      exact hp
    · rw [if_neg hs] at h; simp at h

/-- Counterexample for C9: with dataset keys `"gpt"` and `"GPT"`, the
lower-case dict maps `"gpt"` to the upper-cased key `"GPT"`; a
similarity-stage match of that upper-cased key returns the lower-cased
string `"gpt"`, which is itself a dataset key — so the final lookup
does **not** miss and returns `"gpt"`'s (non-empty) record. -/
theorem uppercase_key_hit_cx :
    keysLower ["gpt", "GPT"] = [("gpt", "GPT")] ∧
    stageExact "zz"
      [("gpt", ⟨some ⟨1, 0⟩, none⟩), ("GPT", ⟨some ⟨2, 0⟩, none⟩)] = none ∧
    stageFullScore (fun _ _ => 100) "zz"
      [("gpt", ⟨some ⟨1, 0⟩, none⟩), ("GPT", ⟨some ⟨2, 0⟩, none⟩)] =
      some "gpt" ∧
    get_model_data (fun _ _ => 100) (fun _ _ => 0) "zz"
        [("gpt", ⟨some ⟨1, 0⟩, none⟩), ("GPT", ⟨some ⟨2, 0⟩, none⟩)] [] =
      .ok (⟨some ⟨1, 0⟩, none⟩, [("zz", some "gpt")], true) ∧
    (⟨some ⟨1, 0⟩, none⟩ : PricingRecord) ≠ PricingRecord.empty := by
  decide

/-- C9 (amended): when `_find_best_match` succeeds at the
similarity-ratio or partial-ratio stage it returns the lower-cased form
of a matched dataset key (those stages iterate over the lower-cased key
set), while exact match and Levenshtein return original-cased keys;
consequently, whenever that lower-cased string is not itself a dataset
key — in particular for an uppercase-containing matched key with no
lower-case twin — `get_model_data`'s final lookup
`json_data.get(best_match, {})` misses and returns `{}` even though the
match was found and memoized. -/
theorem lowercased_stage_result (sf sp : String → String → ℚ)
    (q : String) (d : Dataset) (k : String)
    (h1 : stageExact q d = none)
    (h2 : stageFullScore sf q d = some k ∨
      (stageFullScore sf q d = none ∧ stageLev q d = none ∧
        stagePartialScore sp q d = some k)) :
    (∃ K, (k, K) ∈ keysLower (d.map (·.1)) ∧ strLower K = k ∧
      K ∈ d.map (·.1)) ∧
    find_best_match sf sp q d = .ok (some k) ∧
    (∀ memo : Memo, memo.lookup q = none → d.lookup k = none →
      get_model_data sf sp q d memo =
        .ok (PricingRecord.empty, dictUpsert q (some k) memo, true)) := by
  have hmem : ∃ K, (k, K) ∈ keysLower (d.map (·.1)) ∧ strLower K = k ∧
      K ∈ d.map (·.1) := by
    rcases h2 with h2 | ⟨-, -, h4⟩
    · exact stageFullScore_mem sf q d k h2
    · exact stagePartialScore_mem sp q d k h4
  have hdne : d ≠ [] := by
    obtain ⟨K, -, -, hK⟩ := hmem
    intro he
    subst he
    simp at hK
  have hres : resolveStages sf sp q d = some k := by
    unfold resolveStages
    rw [h1]
    rcases h2 with h2 | ⟨h2, h3, h4⟩
    · rw [h2]
    · rw [h2, h3, h4]
  have hfb : find_best_match sf sp q d = .ok (some k) := by
    rw [find_best_match_stages]
    cases d with
    | nil => exact absurd rfl hdne
    | cons p rest => rw [hres]
  refine ⟨hmem, hfb, ?_⟩
  intro memo hmemo hdk
  simp [get_model_data, hmemo, hfb, hdk]

/-- Witness for C9 (amended): the sole dataset key `"GPT-X"` is matched
at the similarity stage as `"gpt-x"`, the final lookup misses, and the
caller receives `{}` while the match is memoized. -/
theorem lowercased_stage_result_witness :
    (stageExact "zz" [("GPT-X", ⟨some ⟨1, 0⟩, none⟩)] = none) ∧
    (stageFullScore (fun _ _ => 100) "zz"
      [("GPT-X", ⟨some ⟨1, 0⟩, none⟩)] = some "gpt-x") ∧
    find_best_match (fun _ _ => 100) (fun _ _ => 0) "zz"
        [("GPT-X", ⟨some ⟨1, 0⟩, none⟩)] = .ok (some "gpt-x") ∧
    get_model_data (fun _ _ => 100) (fun _ _ => 0) "zz"
        [("GPT-X", ⟨some ⟨1, 0⟩, none⟩)] [] =
      .ok (PricingRecord.empty, [("zz", some "gpt-x")], true) := by
  refine ⟨by decide, by decide, ?_, ?_⟩
  · exact (lowercased_stage_result (fun _ _ => 100) (fun _ _ => 0) "zz"
      [("GPT-X", ⟨some ⟨1, 0⟩, none⟩)] "gpt-x" (by decide)
      (Or.inl (by decide))).2.1
  · exact (lowercased_stage_result (fun _ _ => 100) (fun _ _ => 0) "zz"
      [("GPT-X", ⟨some ⟨1, 0⟩, none⟩)] "gpt-x" (by decide)
      (Or.inl (by decide))).2.2 [] rfl (by decide)

theorem roundHalfUpQ_intCast (n : ℤ) : roundHalfUpQ (n : ℚ) = n := by
  have hhalf : ⌊(1 : ℚ) / 2⌋ = 0 := by norm_num
  unfold roundHalfUpQ
  by_cases hn : (0 : ℚ) ≤ (n : ℚ)
  · rw [if_pos hn, Int.floor_int_add, hhalf, add_zero]
  · rw [if_neg hn]
    rw [show -(n : ℚ) = ((-n : ℤ) : ℚ) by push_cast; ring]
    rw [Int.floor_int_add, hhalf, add_zero, neg_neg]

theorem roundHalfUpQ_natAux (n m : ℕ) (hm : 0 < m) :
    ⌊(n : ℚ) / (m : ℚ) + 1 / 2⌋ = (((2 * n + m) / (2 * m) : ℕ) : ℤ) := by
  have hm' : (m : ℚ) ≠ 0 := by positivity
  have key : (n : ℚ) / (m : ℚ) + 1 / 2 =
      (((2 * n + m : ℕ) : ℤ) : ℚ) / (((2 * m : ℕ)) : ℚ) := by
    push_cast
    field_simp
    ring
  rw [key, Rat.floor_intCast_div_natCast]
  norm_cast

theorem roundHalfUpQ_div_nat (c : ℤ) (m : ℕ) (hm : 0 < m) :
    roundHalfUpQ ((c : ℚ) / (m : ℚ)) = roundHalfUpInt c m := by
  have hmq : (0 : ℚ) < (m : ℚ) := by positivity
  unfold roundHalfUpQ roundHalfUpInt
  by_cases hc : 0 ≤ c
  · have h1 : (0 : ℚ) ≤ (c : ℚ) / (m : ℚ) :=
      div_nonneg (by exact_mod_cast hc) (le_of_lt hmq)
    rw [if_pos h1, if_pos hc]
    have hcn : (c : ℚ) = ((c.natAbs : ℕ) : ℚ) := by
      rw [Int.cast_natAbs]
      exact_mod_cast (abs_of_nonneg hc).symm
    rw [hcn, roundHalfUpQ_natAux _ _ hm]
    rfl
  · have hclt : c < 0 := lt_of_not_ge hc
    have h1 : ¬ (0 : ℚ) ≤ (c : ℚ) / (m : ℚ) := by
      rw [not_le]
      apply div_neg_of_neg_of_pos _ hmq
      exact_mod_cast hclt
    rw [if_neg h1, if_neg hc]
    have hcn : -((c : ℚ) / (m : ℚ)) = ((c.natAbs : ℕ) : ℚ) / (m : ℚ) := by
      rw [← neg_div]
      congr 1
      rw [Int.cast_natAbs]
      exact_mod_cast (abs_of_neg hclt).symm
    rw [hcn, roundHalfUpQ_natAux _ _ hm]
    rfl

theorem val_mk_natCast (n : Nat) : (⟨(n : ℤ), 0⟩ : Dec).val = (n : ℚ) := by
  simp [Dec.val]

theorem rawMul_val (a b : Dec) : (rawMul a b).val = a.val * b.val := by
  unfold rawMul Dec.val
  rw [zpow_add₀ (by norm_num : (10 : ℚ) ≠ 0)]
  push_cast
  ring

theorem rawAdd_val (a b : Dec) : (rawAdd a b).val = a.val + b.val := by
  unfold rawAdd Dec.val
  dsimp only
  have ha : (((a.exp - min a.exp b.exp).toNat : ℤ)) = a.exp - min a.exp b.exp :=
    Int.toNat_of_nonneg (by omega)
  have hb : (((b.exp - min a.exp b.exp).toNat : ℤ)) = b.exp - min a.exp b.exp :=
    Int.toNat_of_nonneg (by omega)
  have h10 : (10 : ℚ) ≠ 0 := by norm_num
  push_cast
  rw [add_mul]
  rw [mul_assoc, mul_assoc]
  rw [← zpow_natCast (10 : ℚ) (a.exp - min a.exp b.exp).toNat,
    ← zpow_natCast (10 : ℚ) (b.exp - min a.exp b.exp).toNat, ha, hb]
  rw [← zpow_add₀ h10, ← zpow_add₀ h10]
  rw [sub_add_cancel, sub_add_cancel]

theorem decQuantize8_val (d r : Dec) (h : decQuantize8 d = .ok r) :
    r.coeff = roundHalfUpQ (d.val * 10 ^ 8) ∧ r.exp = -8 ∧
    r.val = quantize8Q d.val := by
  have h10 : (10 : ℚ) ≠ 0 := by norm_num
  have hpow8 : ((10 : ℚ) ^ (8 : ℕ)) = (10 : ℚ) ^ ((8 : ℕ) : ℤ) :=
    (zpow_natCast 10 8).symm
  have zEq : (if 0 ≤ d.exp + 8 then d.coeff * 10 ^ (d.exp + 8).toNat
      else roundHalfUpInt d.coeff (10 ^ (-(d.exp + 8)).toNat)) =
      roundHalfUpQ (d.val * 10 ^ 8) := by
    by_cases hpos : 0 ≤ d.exp + 8
    · rw [if_pos hpos]
      have hk : (((d.exp + 8).toNat : ℕ) : ℤ) = d.exp + 8 :=
        Int.toNat_of_nonneg hpos
      have hval : d.val * 10 ^ 8 =
          ((d.coeff * 10 ^ (d.exp + 8).toNat : ℤ) : ℚ) := by
        unfold Dec.val
        push_cast
        rw [← zpow_natCast (10 : ℚ) (d.exp + 8).toNat, hk]
        rw [mul_assoc, hpow8, ← zpow_add₀ h10]
        norm_num
      rw [hval, roundHalfUpQ_intCast]
    · rw [if_neg hpos]
      have hk : (((-(d.exp + 8)).toNat : ℕ) : ℤ) = -(d.exp + 8) :=
        Int.toNat_of_nonneg (by omega)
      have hval : d.val * 10 ^ 8 =
          ((d.coeff : ℚ) / ((10 ^ (-(d.exp + 8)).toNat : ℕ) : ℚ)) := by
        have hquot : (((10 ^ (-(d.exp + 8)).toNat : ℕ) : ℚ)) =
            (10 : ℚ) ^ ((-(d.exp + 8)).toNat : ℕ) := by
          push_cast
          ring
        unfold Dec.val
        rw [hquot, div_eq_mul_inv,
          ← zpow_natCast (10 : ℚ) ((-(d.exp + 8)).toNat), ← zpow_neg]
        rw [mul_assoc, hpow8, ← zpow_add₀ h10]
        have he : d.exp + ((8 : ℕ) : ℤ) =
            -(((-(d.exp + 8)).toNat : ℕ) : ℤ) := by
          rw [hk]
          push_cast
          ring
        rw [he]
      rw [hval, roundHalfUpQ_div_nat _ _ (by positivity)]
  unfold decQuantize8 at h
  dsimp only at h
  rw [zEq] at h
  split at h
  · simp only [Except.ok.injEq] at h
    rw [← h]
    refine ⟨rfl, rfl, ?_⟩
    unfold Dec.val quantize8Q
    dsimp only
    rw [show ((-8 : ℤ)) = -((8 : ℕ) : ℤ) by norm_num]
    rw [zpow_neg, zpow_natCast, div_eq_mul_inv]
  · exact absurd h (by simp)

/-- Counterexample for C2: `calculate_costs`' intermediate arithmetic is
not exact — Python `Decimal` rounds at the 28-significant-digit context
precision and `quantize` overflows.  With pricing
`input_cost_per_token = 1`, `input_tokens = 10^28 + 1` and compensation
`1`, the code raises `InvalidOperation` instead of returning the exact
quantized formula value `10^28 + 1`. -/
theorem decimal_context_cx :
    costFromPricing ⟨some ⟨1, 0⟩, none⟩ (10 ^ 28 + 1) 0 ⟨1, 0⟩ =
      .error () ∧
    specCost ⟨some ⟨1, 0⟩, none⟩ (10 ^ 28 + 1) 0 ⟨1, 0⟩ =
      ((10 ^ 28 + 1 : ℕ) : ℚ) := by
  constructor
  · decide
  · have hinner :
        (Dec.val ⟨1, 0⟩ *
          (((10 ^ 28 + 1 : ℕ) : ℚ) * Dec.val ⟨1, 0⟩ +
            ((0 : ℕ) : ℚ) * Dec.val ⟨0, 0⟩)) = ((10 ^ 28 + 1 : ℕ) : ℚ) := by
      unfold Dec.val
      norm_num
    unfold specCost
    dsimp only
    simp only [Option.getD_some, Option.getD_none]
    rw [hinner]
    unfold quantize8Q
    rw [show ((10 ^ 28 + 1 : ℕ) : ℚ) * 10 ^ 8 =
        ((10 ^ 36 + 10 ^ 8 : ℤ) : ℚ) by push_cast; ring]
    rw [roundHalfUpQ_intCast]
    push_cast
    norm_num

/-- C2 (amended): `calculate_costs` computes
`compensation * (input_tokens * input_cost_per_token +
output_tokens * output_cost_per_token)` in Python `Decimal` arithmetic
and quantizes the total to 8 fractional digits with half-up rounding;
whenever none of the intermediate results exceeds the 28-significant-
digit context precision (so no context rounding occurs) and the
quantized coefficient fits, the returned value is exactly the
specification's formula on exact rationals, with exponent `-8`; in
particular the `0.00001 / 0.00002 / 1000 / 500 / 1.0` example yields
exactly `0.02000000`.  (The compensation factor enters as the exact
decimal value of the binary float, `Decimal(float(compensation))`.) -/
theorem calculate_costs_decimal (sf sp : String → String → ℚ)
    (model : String) (d : Dataset) (memo : Memo)
    (input_tokens output_tokens : Nat) (comp : Dec)
    (rec : PricingRecord) (memo' : Memo) (inv : Bool) (r : Dec)
    (hres : get_model_data sf sp model d memo = .ok (rec, memo', inv))
    (h1 : roundFree (rawMul ⟨input_tokens, 0⟩
      (rec.input_cost_per_token.getD ⟨0, 0⟩)))
    (h2 : roundFree (rawMul ⟨output_tokens, 0⟩
      (rec.output_cost_per_token.getD ⟨0, 0⟩)))
    (h3 : roundFree (rawAdd
      (rawMul ⟨input_tokens, 0⟩ (rec.input_cost_per_token.getD ⟨0, 0⟩))
      (rawMul ⟨output_tokens, 0⟩ (rec.output_cost_per_token.getD ⟨0, 0⟩))))
    (h4 : roundFree (rawMul comp (rawAdd
      (rawMul ⟨input_tokens, 0⟩ (rec.input_cost_per_token.getD ⟨0, 0⟩))
      (rawMul ⟨output_tokens, 0⟩ (rec.output_cost_per_token.getD ⟨0, 0⟩)))))
    (hq : costFromPricing rec input_tokens output_tokens comp = .ok r) :
    calculate_costs sf sp model d memo input_tokens output_tokens comp =
      .ok (r, memo', inv) ∧
    r.val = specCost rec input_tokens output_tokens comp ∧
    r.exp = -8 ∧
    costFromPricing ⟨some ⟨1, -5⟩, some ⟨2, -5⟩⟩ 1000 500 ⟨1, 0⟩ =
      .ok ⟨2000000, -8⟩ ∧
    Dec.val ⟨2000000, -8⟩ = 1 / 50 := by
  have e1 : decMul ⟨input_tokens, 0⟩ (rec.input_cost_per_token.getD ⟨0, 0⟩) =
      rawMul ⟨input_tokens, 0⟩ (rec.input_cost_per_token.getD ⟨0, 0⟩) := h1
  have e2 : decMul ⟨output_tokens, 0⟩ (rec.output_cost_per_token.getD ⟨0, 0⟩) =
      rawMul ⟨output_tokens, 0⟩ (rec.output_cost_per_token.getD ⟨0, 0⟩) := h2
  have hqq : costFromPricing rec input_tokens output_tokens comp =
      decQuantize8 (rawMul comp (rawAdd
        (rawMul ⟨input_tokens, 0⟩ (rec.input_cost_per_token.getD ⟨0, 0⟩))
        (rawMul ⟨output_tokens, 0⟩
          (rec.output_cost_per_token.getD ⟨0, 0⟩)))) := by
    unfold costFromPricing
    dsimp only
    rw [e1, e2]
    unfold decAdd
    rw [h3]
    unfold decMul
    rw [h4]
  rw [hqq] at hq
  obtain ⟨-, hexp, hval⟩ := decQuantize8_val _ _ hq
  refine ⟨?_, ?_, hexp, by decide, ?_⟩
  · unfold calculate_costs
    rw [hres]
    dsimp only
    rw [hqq, hq]
  · rw [hval]
    unfold specCost
    congr 1
    rw [rawMul_val, rawAdd_val, rawMul_val, rawMul_val, val_mk_natCast,
      val_mk_natCast]
  · unfold Dec.val
    rw [show ((-8 : ℤ)) = -((8 : ℕ) : ℤ) by norm_num]
    rw [zpow_neg, zpow_natCast]
    norm_num

/-- Witness for C2 (amended), at the specification's decimal-precision
example: dataset record `{"input_cost_per_token": 1e-05,
"output_cost_per_token": 2e-05}`, 1000 input and 500 output tokens,
compensation `1.0` — the exact quantized result `0.02000000`. -/
theorem calculate_costs_decimal_witness :
    get_model_data (fun _ _ => 0) (fun _ _ => 0) "gpt-4o"
        [("gpt-4o", ⟨some ⟨1, -5⟩, some ⟨2, -5⟩⟩)] [] =
      .ok (⟨some ⟨1, -5⟩, some ⟨2, -5⟩⟩, [("gpt-4o", some "gpt-4o")], true) ∧
    costFromPricing ⟨some ⟨1, -5⟩, some ⟨2, -5⟩⟩ 1000 500 ⟨1, 0⟩ =
      .ok ⟨2000000, -8⟩ ∧
    (calculate_costs (fun _ _ => 0) (fun _ _ => 0) "gpt-4o"
        [("gpt-4o", ⟨some ⟨1, -5⟩, some ⟨2, -5⟩⟩)] [] 1000 500 ⟨1, 0⟩ =
      .ok (⟨2000000, -8⟩, [("gpt-4o", some "gpt-4o")], true) ∧
      Dec.val ⟨2000000, -8⟩ =
        specCost ⟨some ⟨1, -5⟩, some ⟨2, -5⟩⟩ 1000 500 ⟨1, 0⟩) := by
  refine ⟨by decide, by decide, ?_⟩
  have := calculate_costs_decimal (fun _ _ => 0) (fun _ _ => 0) "gpt-4o"
    [("gpt-4o", ⟨some ⟨1, -5⟩, some ⟨2, -5⟩⟩)] [] 1000 500 ⟨1, 0⟩
    ⟨some ⟨1, -5⟩, some ⟨2, -5⟩⟩ [("gpt-4o", some "gpt-4o")] true
    ⟨2000000, -8⟩ (by decide) (by unfold roundFree; decide)
    (by unfold roundFree; decide) (by unfold roundFree; decide)
    (by unfold roundFree; decide) (by decide)
  exact ⟨this.1, this.2.1⟩

theorem editDist_nil_left (t : List Char) : editDist [] t = t.length := by
  simp [editDist]

theorem editDist_nil_right (s : List Char) : editDist s [] = s.length := by
  cases s with
  | nil => simp [editDist]
  | cons a s => simp [editDist]

theorem editDist_cons_cons (a : Char) (s : List Char) (b : Char)
    (t : List Char) :
    editDist (a :: s) (b :: t) =
      min (editDist s (b :: t) + 1)
        (min (editDist (a :: s) t + 1)
          (editDist s t + (if a = b then 0 else 1))) := by
  simp [editDist]

theorem editDist_self (s : List Char) : editDist s s = 0 := by
  induction s with
  | nil => simp [editDist_nil_left]
  | cons a s ih =>
    rw [editDist_cons_cons, ih]
    simp

theorem EditSeq.snoc {n : Nat} {s t u : List Char} (h : EditSeq n s t)
    (e : EditStep t u) : EditSeq (n + 1) s u := by
  induction h with
  | refl s => exact EditSeq.step e (EditSeq.refl u)
  | step e' h' ih => exact EditSeq.step e' (ih e)

theorem EditStep.consStep (a : Char) {s t : List Char} (h : EditStep s t) :
    EditStep (a :: s) (a :: t) := by
  cases h with
  | insert u v c => exact EditStep.insert (a :: u) v c
  | delete u v c => exact EditStep.delete (a :: u) v c
  | subst u v c d => exact EditStep.subst (a :: u) v c d

theorem EditSeq.consSeq (a : Char) {n : Nat} {s t : List Char}
    (h : EditSeq n s t) : EditSeq n (a :: s) (a :: t) := by
  induction h with
  | refl s => exact EditSeq.refl (a :: s)
  | step e h' ih => exact EditSeq.step (e.consStep a) ih

theorem EditSeq_of_nil (t : List Char) : EditSeq t.length [] t := by
  induction t with
  | nil => exact EditSeq.refl []
  | cons c t' ih =>
    exact EditSeq.step (EditStep.insert [] [] c) (ih.consSeq c)

theorem EditSeq_to_nil (s : List Char) : EditSeq s.length s [] := by
  induction s with
  | nil => exact EditSeq.refl []
  | cons a s' ih =>
    exact EditSeq.step (EditStep.delete [] s' a) ih

theorem min3_cases (x y z : Nat) :
    min x (min y z) = x ∨ min x (min y z) = y ∨ min x (min y z) = z := by
  omega

theorem editDist_seq_aux : ∀ (n : Nat) (s t : List Char),
    s.length + t.length = n → EditSeq (editDist s t) s t := by
  intro n
  induction n using Nat.strong_induction_on with
  | _ n ih =>
    intro s t hlen
    match s, t with
    | [], t =>
      rw [editDist_nil_left]
      exact EditSeq_of_nil t
    | a :: s', [] =>
      rw [editDist_nil_right]
      exact EditSeq_to_nil _
    | a :: s', b :: t' =>
      simp only [List.length_cons] at hlen
      rw [editDist_cons_cons]
      have cx : EditSeq (editDist s' (b :: t') + 1) (a :: s') (b :: t') :=
        EditSeq.step (EditStep.delete [] s' a)
          (ih (s'.length + (b :: t').length) (by simp; omega) s' (b :: t') rfl)
      have cy : EditSeq (editDist (a :: s') t' + 1) (a :: s') (b :: t') :=
        EditSeq.snoc
          (ih ((a :: s').length + t'.length) (by simp; omega) (a :: s') t' rfl)
          (EditStep.insert [] t' b)
      have cz : EditSeq (editDist s' t' + (if a = b then 0 else 1))
          (a :: s') (b :: t') := by
        by_cases hab : a = b
        · subst hab
          rw [if_pos rfl, Nat.add_zero]
          exact EditSeq.consSeq a
            (ih (s'.length + t'.length) (by omega) s' t' rfl)
        · rw [if_neg hab]
          exact EditSeq.step (EditStep.subst [] s' a b)
            ((ih (s'.length + t'.length) (by omega) s' t' rfl).consSeq b)
      rcases min3_cases (editDist s' (b :: t') + 1) (editDist (a :: s') t' + 1)
          (editDist s' t' + (if a = b then 0 else 1)) with h | h | h
      · rw [h]; exact cx
      · rw [h]; exact cy
      · rw [h]; exact cz

theorem editDist_seq (s t : List Char) : EditSeq (editDist s t) s t :=
  editDist_seq_aux (s.length + t.length) s t rfl

theorem editDist_le_insSnd (s : List Char) (d : Char) (t : List Char) :
    editDist s (d :: t) ≤ editDist s t + 1 := by
  cases s with
  | nil => simp [editDist_nil_left]
  | cons e s' =>
    rw [editDist_cons_cons]
    omega

theorem editDist_le_delFst (c : Char) (v t : List Char) :
    editDist (c :: v) t ≤ editDist v t + 1 := by
  cases t with
  | nil => simp [editDist_nil_right]
  | cons d t' =>
    rw [editDist_cons_cons]
    omega

theorem editDist_append_ins : ∀ (n : Nat) (u t : List Char) (c : Char)
    (v : List Char), u.length + t.length = n →
    editDist (u ++ c :: v) t ≤ editDist (u ++ v) t + 1 := by
  intro n
  induction n using Nat.strong_induction_on with
  | _ n ih =>
    intro u t c v hlen
    match u, t with
    | [], t => simpa using editDist_le_delFst c v t
    | a :: u', [] =>
      simp only [editDist_nil_right, List.length_append, List.length_cons]
      omega
    | a :: u', d :: t' =>
      simp only [List.length_cons] at hlen
      rw [List.cons_append, List.cons_append, editDist_cons_cons,
        editDist_cons_cons]
      have h1 := ih (u'.length + (d :: t').length) (by simp; omega)
        u' (d :: t') c v rfl
      have h2 := ih ((a :: u').length + t'.length) (by simp; omega)
        (a :: u') t' c v rfl
      have h3 := ih (u'.length + t'.length) (by omega) u' t' c v rfl
      rw [List.cons_append, List.cons_append] at h2
      omega

theorem editDist_append_del : ∀ (n : Nat) (u t : List Char) (c : Char)
    (v : List Char), u.length + t.length = n →
    editDist (u ++ v) t ≤ editDist (u ++ c :: v) t + 1 := by
  intro n
  induction n using Nat.strong_induction_on with
  | _ n ih =>
    intro u t c v hlen
    match u, t with
    | [], [] =>
      simp only [List.nil_append, editDist_nil_right, List.length_cons]
      omega
    | [], d :: t' =>
      simp only [List.nil_append]
      rw [editDist_cons_cons]
      have hA := editDist_le_insSnd v d t'
      have hB := ih t'.length (by simp at hlen; omega) [] t' c v (by simp)
      simp only [List.nil_append] at hB
      omega
    | a :: u', [] =>
      simp only [editDist_nil_right, List.length_append, List.length_cons]
      omega
    | a :: u', d :: t' =>
      simp only [List.length_cons] at hlen
      rw [List.cons_append, List.cons_append, editDist_cons_cons,
        editDist_cons_cons]
      have h1 := ih (u'.length + (d :: t').length) (by simp; omega)
        u' (d :: t') c v rfl
      have h2 := ih ((a :: u').length + t'.length) (by simp; omega)
        (a :: u') t' c v rfl
      have h3 := ih (u'.length + t'.length) (by omega) u' t' c v rfl
      rw [List.cons_append, List.cons_append] at h2
      omega

theorem editDist_append_subst : ∀ (n : Nat) (u t : List Char) (c e : Char)
    (v : List Char), u.length + t.length = n →
    editDist (u ++ c :: v) t ≤ editDist (u ++ e :: v) t + 1 := by
  intro n
  induction n using Nat.strong_induction_on with
  | _ n ih =>
    intro u t c e v hlen
    match u, t with
    | [], [] =>
      simp only [List.nil_append, editDist_nil_right, List.length_cons]
      omega
    | [], d :: t' =>
      simp only [List.nil_append]
      rw [editDist_cons_cons, editDist_cons_cons]
      have hB := ih t'.length (by simp at hlen; omega) [] t' c e v (by simp)
      simp only [List.nil_append] at hB
      have hc1 : (if c = d then 0 else 1) ≤ 1 := by split <;> omega
      have hc2 : (0 : Nat) ≤ (if e = d then 0 else 1) := by omega
      omega
    | a :: u', [] =>
      simp only [editDist_nil_right, List.length_append, List.length_cons]
      omega
    | a :: u', d :: t' =>
      simp only [List.length_cons] at hlen
      rw [List.cons_append, List.cons_append, editDist_cons_cons,
        editDist_cons_cons]
      have h1 := ih (u'.length + (d :: t').length) (by simp; omega)
        u' (d :: t') c e v rfl
      have h2 := ih ((a :: u').length + t'.length) (by simp; omega)
        (a :: u') t' c e v rfl
      have h3 := ih (u'.length + t'.length) (by omega) u' t' c e v rfl
      rw [List.cons_append, List.cons_append] at h2
      omega

theorem editDist_le_of_step (s s' t : List Char) (h : EditStep s s') :
    editDist s t ≤ editDist s' t + 1 := by
  cases h with
  | insert u v c => exact editDist_append_del (u.length + t.length) u t c v rfl
  | delete u v c => exact editDist_append_ins (u.length + t.length) u t c v rfl
  | subst u v c d =>
    exact editDist_append_subst (u.length + t.length) u t c d v rfl

theorem editDist_le_seq : ∀ {n : Nat} {s t : List Char},
    EditSeq n s t → editDist s t ≤ n := by
  intro n s t h
  induction h with
  | refl s => rw [editDist_self]
  | step e h' ih =>
    rename_i m s₀ t₀ u₀
    have hstep := editDist_le_of_step s₀ t₀ u₀ e
    omega

theorem EditStep.symmStep {s t : List Char} (h : EditStep s t) :
    EditStep t s := by
  cases h with
  | insert u v c => exact EditStep.delete u v c
  | delete u v c => exact EditStep.insert u v c
  | subst u v c d => exact EditStep.subst u v d c

theorem EditSeq.symmSeq {n : Nat} {s t : List Char} (h : EditSeq n s t) :
    EditSeq n t s := by
  induction h with
  | refl s => exact EditSeq.refl s
  | step e h' ih => exact ih.snoc e.symmStep

theorem editDist_symm (s t : List Char) : editDist s t = editDist t s :=
  Nat.le_antisymm (editDist_le_seq (editDist_seq t s).symmSeq)
    (editDist_le_seq (editDist_seq s t).symmSeq)

theorem editDist_eq_zero_iff (s t : List Char) :
    editDist s t = 0 ↔ s = t := by
  constructor
  · intro h0
    have hseq := editDist_seq s t
    rw [h0] at hseq
    cases hseq with
    | refl => rfl
  · intro h
    rw [h, editDist_self]

theorem EditStep.revStep {s t : List Char} (h : EditStep s t) :
    EditStep s.reverse t.reverse := by
  cases h with
  | insert u v c =>
    have := EditStep.insert v.reverse u.reverse c
    simpa [List.reverse_append] using this
  | delete u v c =>
    have := EditStep.delete v.reverse u.reverse c
    simpa [List.reverse_append] using this
  | subst u v c d =>
    have := EditStep.subst v.reverse u.reverse c d
    simpa [List.reverse_append] using this

theorem EditSeq.revSeq {n : Nat} {s t : List Char} (h : EditSeq n s t) :
    EditSeq n s.reverse t.reverse := by
  induction h with
  | refl s => exact EditSeq.refl s.reverse
  | step e h' ih => exact EditSeq.step e.revStep ih

theorem editDist_rev (s t : List Char) :
    editDist s.reverse t.reverse = editDist s t := by
  refine Nat.le_antisymm (editDist_le_seq (editDist_seq s t).revSeq) ?_
  have h := (editDist_seq s.reverse t.reverse).revSeq
  simp only [List.reverse_reverse] at h
  exact editDist_le_seq h

theorem specRow_headD (x : List Char) : ∀ (b y : List Char),
    (specRow x y b).headD 0 = editDist x y := by
  intro b y
  cases b <;> rfl

theorem levRowAux_spec (c : Char) : ∀ (b y x : List Char),
    editDist (c :: x) y :: levRowAux c b (editDist (c :: x) y) (specRow x y b) =
      specRow (c :: x) y b := by
  intro b
  induction b with
  | nil => intro y x; rfl
  | cons d b' ih =>
    intro y x
    have hrow : specRow x y (d :: b') =
        editDist x y :: specRow x (d :: y) b' := rfl
    rw [hrow]
    rw [show levRowAux c (d :: b') (editDist (c :: x) y)
        (editDist x y :: specRow x (d :: y) b') =
        (min ((specRow x (d :: y) b').headD 0 + 1)
          (min (editDist (c :: x) y + 1)
            (editDist x y + (if c = d then 0 else 1)))) ::
          levRowAux c b'
            (min ((specRow x (d :: y) b').headD 0 + 1)
              (min (editDist (c :: x) y + 1)
                (editDist x y + (if c = d then 0 else 1))))
            (specRow x (d :: y) b') from rfl]
    rw [specRow_headD]
    rw [show min (editDist x (d :: y) + 1)
        (min (editDist (c :: x) y + 1)
          (editDist x y + (if c = d then 0 else 1))) =
        editDist (c :: x) (d :: y) from (editDist_cons_cons c x d y).symm]
    rw [ih (d :: y) x]
    rfl

theorem levRows_spec : ∀ (as x b : List Char),
    levRows as b x.length (specRow x [] b) =
      specRow (as.reverse ++ x) [] b := by
  intro as
  induction as with
  | nil => intro x b; simp [levRows]
  | cons c as' ih =>
    intro x b
    rw [levRows]
    have h1 : levRow c b (specRow x [] b) (x.length + 1) =
        specRow (c :: x) [] b := by
      unfold levRow
      rw [show x.length + 1 = editDist (c :: x) [] by
        rw [editDist_nil_right]; simp]
      exact levRowAux_spec c b [] x
    rw [h1]
    have h2 := ih (c :: x) b
    simp only [List.length_cons] at h2
    rw [h2]
    congr 1
    simp [List.reverse_cons, List.append_assoc]

theorem specRow_nil_left : ∀ (b y : List Char),
    specRow [] y b =
      (List.range (b.length + 1)).map (fun j => j + y.length) := by
  intro b
  induction b with
  | nil =>
    intro y
    show [editDist [] y] = _
    rw [editDist_nil_left]
    rw [show List.range (([] : List Char).length + 1) = [0] from rfl]
    simp
  | cons d b' ih =>
    intro y
    show editDist [] y :: specRow [] (d :: y) b' = _
    rw [editDist_nil_left, ih (d :: y)]
    simp only [List.length_cons]
    rw [List.range_succ_eq_map (b'.length + 1), List.map_cons, List.map_map]
    congr 1
    · simp
    · congr 1
      funext j
      simp [Function.comp]
      omega

theorem specRow_getLastD : ∀ (b y x : List Char) (dflt : Nat),
    (specRow x y b).getLastD dflt = editDist x (b.reverse ++ y) := by
  intro b
  induction b with
  | nil => intro y x dflt; rfl
  | cons d b' ih =>
    intro y x dflt
    show (editDist x y :: specRow x (d :: y) b').getLastD dflt = _
    rw [List.getLastD_cons]
    rw [ih (d :: y) x (editDist x y)]
    congr 1
    simp [List.reverse_cons, List.append_assoc]

theorem levenshtein_distance_eq_editDist (s1 s2 : String) :
    levenshtein_distance s1 s2 = editDist s1.data s2.data := by
  unfold levenshtein_distance
  have hrange : List.range (s2.data.length + 1) = specRow [] [] s2.data := by
    rw [specRow_nil_left]
    simp
  rw [hrange]
  have h := levRows_spec s1.data [] s2.data
  simp only [List.length_nil] at h
  rw [h]
  rw [specRow_getLastD]
  simp only [List.append_nil]
  exact editDist_rev _ _

/-- C10: `levenshtein_distance` computes the standard Levenshtein edit
distance: it is the length of some sequence of single-character
insertions, deletions and substitutions transforming `s1` into `s2`,
and no shorter such sequence exists; in particular it is symmetric and
zero exactly on equal strings. -/
theorem levenshtein_distance_correct (s1 s2 : String) :
    EditSeq (levenshtein_distance s1 s2) s1.data s2.data ∧
    (∀ n, EditSeq n s1.data s2.data → levenshtein_distance s1 s2 ≤ n) ∧
    levenshtein_distance s1 s2 = levenshtein_distance s2 s1 ∧
    (levenshtein_distance s1 s2 = 0 ↔ s1 = s2) := by
  have he := levenshtein_distance_eq_editDist s1 s2
  refine ⟨?_, ?_, ?_, ?_⟩
  · rw [he]
    exact editDist_seq _ _
  · intro n hn
    rw [he]
    exact editDist_le_seq hn
  · rw [he, levenshtein_distance_eq_editDist s2 s1]
    exact editDist_symm _ _
  · rw [he, editDist_eq_zero_iff]
    constructor
    · intro hd
      cases s1 with
      | mk d1 =>
        cases s2 with
        | mk d2 =>
          have hdd : d1 = d2 := by simpa using hd
          rw [hdd]
    · intro hh
      rw [hh]

/-- Witness for C10, at the specification's `"gpt-4o-min"` /
`"gpt-4o-mini"` pair (edit distance 1). -/
theorem levenshtein_distance_correct_witness :
    levenshtein_distance "gpt-4o-min" "gpt-4o-mini" = 1 ∧
    EditSeq (levenshtein_distance "gpt-4o-min" "gpt-4o-mini")
      ("gpt-4o-min").data ("gpt-4o-mini").data :=
  ⟨by decide, (levenshtein_distance_correct "gpt-4o-min" "gpt-4o-mini").1⟩
